import Mathlib

/-!
Verification of `ljpx/id` (`ID.go`).

A shallow embedding of the 128-bit identifier type of `ID.go`, together with the
parts of the Go standard library that `ID.go` calls (`encoding/hex`, `copy`,
`strings.ReplaceAll` with a one-byte pattern, `fmt.Sprintf` with the format
`"%v"` between two quote characters).

Conventions of the embedding:
* a Go `byte` is a `Fin 256`; byte arithmetic is done on `Nat` and truncated
  with an explicit `% 256`;
* a Go `string` and a Go `[]byte` are both `List Byte` (a Go string is a
  sequence of bytes, and `hex.DecodeString` works on `[]byte(s)`);
* a Go result pair `(v, err)` is a Lean pair `(v, e)` with `e : Option _`,
  `none` standing for the `nil` error;
* a method with a pointer receiver (`UnmarshalJSON`, `Scan`) takes the prior
  value of the receiver and returns the value it leaves behind.
-/

namespace id

/-! ## Data model -/

/-- A Go `byte`. -/
abbrev Byte := Fin 256

/-- Go: `const ByteSize = 16`. -/
def ByteSize : Nat := 16

/-- Go: `type ID [ByteSize]byte`, an array of exactly `ByteSize` bytes. -/
structure ID where
  bytes : List Byte
  size : bytes.length = ByteSize
  deriving DecidableEq

/-- Go: `var Empty = ID{}`, the zero value of the array type. -/
def Empty : ID := ⟨List.replicate ByteSize 0, by simp⟩

/-- Go: `id[i]`; indices outside the array read as `0` (never used out of range). -/
def ID.get (x : ID) (i : Nat) : Byte := x.bytes.getD i 0

/-! ## `encoding/hex` -/

/-- Errors of `encoding/hex`: `InvalidByteError(b)` and `ErrLength`. -/
inductive HexError where
  | InvalidByteError (b : Byte)
  | ErrLength
  deriving DecidableEq, Repr

/-- Go: `const hextable = "0123456789abcdef"`. -/
def hextable : List Byte :=
  [48, 49, 50, 51, 52, 53, 54, 55, 56, 57, 97, 98, 99, 100, 101, 102]

/-- Go: `hextable[v>>4]`. -/
def hexHi (v : Byte) : Byte := hextable.getD (v.val >>> 4) 0

/-- Go: `hextable[v&0x0f]`. -/
def hexLo (v : Byte) : Byte := hextable.getD (v.val &&& 0x0f) 0

/-- Go: `hex.Encode`, the loop
`for _, v := range src { dst[j] = hextable[v>>4]; dst[j+1] = hextable[v&0x0f]; j += 2 }`. -/
def Encode : List Byte → List Byte
  | [] => []
  | v :: rest => hexHi v :: hexLo v :: Encode rest

/-- Go: `hex.EncodeToString`. -/
def EncodeToString (src : List Byte) : List Byte := Encode src

/-- Go: `hex.fromHexChar` (the contents of `reverseHexTable` in later releases):
the value of a hexadecimal digit, `none` for `ok = false`. -/
def fromHexChar (c : Byte) : Option Nat :=
  if 48 ≤ c.val ∧ c.val ≤ 57 then some (c.val - 48)
  else if 97 ≤ c.val ∧ c.val ≤ 102 then some (c.val - 97 + 10)
  else if 65 ≤ c.val ∧ c.val ≤ 70 then some (c.val - 65 + 10)
  else none

/-- Go: `(a << 4) | b` on bytes. -/
def mkByte (a b : Nat) : Byte := ⟨((a <<< 4) ||| b) % 256, Nat.mod_lt _ (by decide)⟩

/-- Go: `hex.Decode` / `hex.DecodeString`: the bytes decoded so far and the error.
The loop reads two characters at a time and stops at the first that is not a
hexadecimal digit; a trailing single character is reported as an invalid byte if
it is no digit and as `ErrLength` otherwise. -/
def DecodeString : List Byte → List Byte × Option HexError
  | [] => ([], none)
  | [p] =>
    match fromHexChar p with
    | none => ([], some (HexError.InvalidByteError p))
    | some _ => ([], some HexError.ErrLength)
  | p :: q :: rest =>
    match fromHexChar p with
    | none => ([], some (HexError.InvalidByteError p))
    | some a =>
      match fromHexChar q with
      | none => ([], some (HexError.InvalidByteError q))
      | some b =>
        let r := DecodeString rest
        (mkByte a b :: r.1, r.2)

/-! ## `ID.go` -/

/-- The `error` values that `ID.go` can return. -/
inductive Error where
  /-- Go: `fmt.Errorf("parsing ID failed: %w", err)` wrapping the error of `hex.DecodeString`. -/
  | decode (cause : HexError)
  /-- Go: `fmt.Errorf("parsing ID failed: expected byte length to be %v bytes, but was %v bytes", ByteSize, len(rawID))`. -/
  | length (expected actual : Nat)
  /-- Go: `errors.New("expected to scan a string to ID, but was not a string")`. -/
  | notAString
  deriving DecidableEq, Repr

/-- Go: `copy(newID[:], rawID)`: the first `min(len dst, len src)` bytes of `src`
overwrite the start of `dst`. -/
def copy (dst : ID) (src : List Byte) : ID :=
  ⟨src.take ByteSize ++ dst.bytes.drop src.length, by
    have h := dst.size
    simp only [List.length_append, List.length_take, List.length_drop, h]
    omega⟩

/-- Go: `func (id ID) String() string`. -/
def ID.String (x : ID) : List Byte := EncodeToString x.bytes

/-- Go: `func Parse(hexID string) (ID, error)`. -/
def Parse (hexID : List Byte) : ID × Option Error :=
  match DecodeString hexID with
  | (_, some err) => (Empty, some (Error.decode err))
  | (rawID, none) =>
    if rawID.length ≠ ByteSize then
      (Empty, some (Error.length ByteSize rawID.length))
    else
      (copy Empty rawID, none)

/-- Go: `func (id ID) IsValid() bool { return id != Empty }`. -/
def ID.IsValid (x : ID) : Bool := decide (x ≠ Empty)

/-! ## Structured-data and persistence adapters -/

/-- The quote character `"` (0x22). -/
def quote : Byte := 34

/-- Go: `fmt.Sprintf("\"%v\"", s)` for a string `s`: the verb `%v` prints a
string operand as it is, between the two quote characters of the format. -/
def sprintfQuoted (s : List Byte) : List Byte := quote :: (s ++ [quote])

/-- Go: `strings.ReplaceAll(s, old, new)` for a pattern `old` of one byte: every
occurrence of the byte is replaced by `new`, left to right. -/
def ReplaceAll (s : List Byte) (old : Byte) (new : List Byte) : List Byte :=
  match s with
  | [] => []
  | c :: cs => if c = old then new ++ ReplaceAll cs old new else c :: ReplaceAll cs old new

/-- Go: `func (id ID) MarshalJSON() ([]byte, error)`. -/
def ID.MarshalJSON (x : ID) : List Byte × Option Error :=
  (sprintfQuoted x.String, none)

/-- Go: `func (id *ID) UnmarshalJSON(raw []byte) error`; the first component is
the value of `*id` after the call. -/
def ID.UnmarshalJSON (d : ID) (raw : List Byte) : ID × Option Error :=
  let hexID := ReplaceAll raw quote []
  match Parse hexID with
  | (_, some err) => (d, some err)
  | (newID, none) => (newID, none)

/-- Go: the dynamic values a `driver.Value` / `interface{}` handed to `Scan` can
hold: `nil`, `string`, `int64`, `float64` (its IEEE-754 bits), `bool`, `[]byte`,
`time.Time` (as nanoseconds). -/
inductive Src where
  | nil
  | string (s : List Byte)
  | int64 (v : Int)
  | float64 (bits : Nat)
  | bool (b : Bool)
  | bytes (b : List Byte)
  | time (nanos : Int)
  deriving DecidableEq, Repr

/-- Go: `func (id ID) Value() (driver.Value, error)`. -/
def ID.Value (x : ID) : Src × Option Error := (Src.string x.String, none)

/-- Go: `func (id *ID) Scan(src interface{}) error`; the first component is the
value of `*id` after the call. -/
def ID.Scan (d : ID) (src : Src) : ID × Option Error :=
  match src with
  | Src.nil => (Empty, none)
  | Src.string hexID =>
    match Parse hexID with
    | (_, some err) => (d, some err)
    | (newID, none) => (newID, none)
  | _ => (d, some Error.notAString)

/-! ## Vocabulary of the specification -/

/-- A lower-case hexadecimal digit: `0`-`9` or `a`-`f`. -/
def isLowerHexDigit (c : Byte) : Prop := (48 ≤ c.val ∧ c.val ≤ 57) ∨ (97 ≤ c.val ∧ c.val ≤ 102)

/-- A hexadecimal digit: `0`-`9`, `a`-`f` or `A`-`F`. -/
def isHexDigit (c : Byte) : Prop :=
  (48 ≤ c.val ∧ c.val ≤ 57) ∨ (97 ≤ c.val ∧ c.val ≤ 102) ∨ (65 ≤ c.val ∧ c.val ≤ 70)

instance (c : Byte) : Decidable (isLowerHexDigit c) := by unfold isLowerHexDigit; infer_instance

instance (c : Byte) : Decidable (isHexDigit c) := by unfold isHexDigit; infer_instance

/-- The lower-case hexadecimal digit that writes the nibble `n < 16`. -/
def lowerHexDigitOf (n : Nat) : Nat := if n < 10 then 48 + n else 97 + (n - 10)

/-- The value of a hexadecimal digit, in either case (`0` for any other character). -/
def hexValue (c : Byte) : Nat :=
  if 48 ≤ c.val ∧ c.val ≤ 57 then c.val - 48
  else if 97 ≤ c.val ∧ c.val ≤ 102 then c.val - 87
  else if 65 ≤ c.val ∧ c.val ≤ 70 then c.val - 55
  else 0

/-- The bytes of a string literal (UTF-8, as in Go source text). -/
def lit (s : String) : List Byte :=
  s.toList.flatMap fun c => (String.utf8EncodeChar c).map fun u => u.val

/-! ## Generation -/

/-- Go: `uint64(timestamp)` for the `int64` clock reading: its two's complement bit
pattern, an unsigned number below `2^64`. -/
def uint64 (timestamp : Int) : Nat := (timestamp % 2 ^ 64).toNat

/-- Go: `byte(v)`, the low 8 bits of an unsigned number. -/
def byte (v : Nat) : Byte := ⟨v % 256, Nat.mod_lt _ (by decide)⟩

/-- Go: `binary.BigEndian.PutUint64(b, v)`:
`b[0] = byte(v >> 56); b[1] = byte(v >> 48); ...; b[7] = byte(v)`; the bytes of `b`
from index 8 on are left as they are. -/
def PutUint64 (b : List Byte) (v : Nat) : List Byte :=
  [byte (v >>> 56), byte (v >>> 48), byte (v >>> 40), byte (v >>> 32),
   byte (v >>> 24), byte (v >>> 16), byte (v >>> 8), byte v] ++ b.drop 8

/-- Go: `rand.Read(b)` when the random source delivers the bytes `r`: they overwrite
the start of `b` (all of `b` when `r` has `len(b)` bytes; `New` ignores the result of
the call, so a short read leaves the remaining bytes of `b` as they were). -/
def Read (b r : List Byte) : List Byte := r.take b.length ++ b.drop r.length

/-- Go: `func New() ID`, as a function of the clock reading `time.Now().UnixNano()`
and of the bytes delivered by `crypto/rand`: `PutUint64` writes `newID[:ByteSize/2]`
and `rand.Read` writes `newID[ByteSize/2:]`. -/
def New (timestamp : Int) (r : List Byte) : ID :=
  let newID := Empty
  ⟨(PutUint64 (newID.bytes.take (ByteSize / 2)) (uint64 timestamp)).take (ByteSize / 2)
      ++ Read (newID.bytes.drop (ByteSize / 2)) r, by
    have h := newID.size
    simp only [ByteSize] at h
    simp only [Read, PutUint64, ByteSize, List.length_append, List.length_take,
      List.length_drop, List.length_cons, List.length_nil, h]
    omega⟩

/-! ## More vocabulary of the specification -/

/-- Go: `binary.BigEndian.Uint64`, a byte sequence read as a big-endian number. -/
def Uint64 (b : List Byte) : Nat := b.foldl (fun acc x => acc * 256 + x.val) 0

/-- A raw input with every double-quote character removed, wherever it occurs. -/
def stripQuotes (raw : List Byte) : List Byte := raw.filter fun c => decide (c ≠ quote)

/-- A character with the letters `A`-`F` converted to lower case. -/
def lowerHex (c : Byte) : Byte :=
  if 65 ≤ c.val ∧ c.val ≤ 70 then ⟨(c.val + 32) % 256, Nat.mod_lt _ (by decide)⟩ else c

/-- A character with the letters `a`-`f` converted to upper case. -/
def upperHex (c : Byte) : Byte :=
  if h : 97 ≤ c.val ∧ c.val ≤ 102 then ⟨c.val - 32, by omega⟩ else c

/-- The string of 32 characters `0`. -/
def zeros32 : List Byte := List.replicate 32 48

/-- An identifier with every byte `0xff`: a destination that is not `Empty`. -/
def allFF : ID := ⟨List.replicate ByteSize 255, by simp⟩

/-- A double-quote character occurs at a position other than the first and the last. -/
def hasInnerQuote (raw : List Byte) : Prop := quote ∈ (raw.drop 1).dropLast

instance (raw : List Byte) : Decidable (hasInnerQuote raw) := by
  unfold hasInnerQuote; infer_instance

end id

namespace id

/-! ## Facts about `encoding/hex` -/

set_option maxRecDepth 100000 in
/-- Decoding the two characters that `Encode` writes for a byte gives the byte back. -/
theorem fromHexChar_hex (v : Byte) :
    fromHexChar (hexHi v) = some (v.val >>> 4) ∧
    fromHexChar (hexLo v) = some (v.val &&& 0x0f) ∧
    mkByte (v.val >>> 4) (v.val &&& 0x0f) = v := by
  revert v; decide

set_option maxRecDepth 100000 in
/-- The characters that `Encode` writes are the lower-case digits of the two nibbles. -/
theorem hex_digits (v : Byte) :
    (hexHi v).val = lowerHexDigitOf (v.val / 16) ∧
    (hexLo v).val = lowerHexDigitOf (v.val % 16) ∧
    isLowerHexDigit (hexHi v) ∧ isLowerHexDigit (hexLo v) := by
  revert v; decide

theorem Encode_length (l : List Byte) : (Encode l).length = 2 * l.length := by
  induction l with
  | nil => rfl
  | cons v rest ih => simp only [Encode, List.length_cons, ih]; omega

theorem Encode_lower (l : List Byte) : ∀ c ∈ Encode l, isLowerHexDigit c := by
  induction l with
  | nil => intro c hc; simp [Encode] at hc
  | cons v rest ih =>
    intro c hc
    simp only [Encode, List.mem_cons] at hc
    rcases hc with h | h | h
    · rw [h]; exact (hex_digits v).2.2.1
    · rw [h]; exact (hex_digits v).2.2.2
    · exact ih c h

theorem Encode_getElem? (l : List Byte) (i : Nat) :
    (Encode l)[2 * i]? = (l[i]?).map hexHi ∧ (Encode l)[2 * i + 1]? = (l[i]?).map hexLo := by
  induction l generalizing i with
  | nil => simp [Encode]
  | cons v rest ih =>
    cases i with
    | zero => simp [Encode]
    | succ j =>
      have h1 : 2 * (j + 1) = (2 * j + 1) + 1 := by omega
      rw [h1]
      simp only [Encode, List.getElem?_cons_succ]
      exact ih j

theorem DecodeString_Encode (l : List Byte) : DecodeString (Encode l) = (l, none) := by
  induction l with
  | nil => rfl
  | cons v rest ih =>
    obtain ⟨h1, h2, h3⟩ := fromHexChar_hex v
    simp only [Encode, DecodeString, h1, h2, h3, ih]

theorem copy_Empty (l : List Byte) (h : l.length = ByteSize) : copy Empty l = ⟨l, h⟩ := by
  have e : List.take ByteSize l ++ List.drop l.length Empty.bytes = l := by
    rw [h]
    have : List.drop ByteSize Empty.bytes = [] := by decide
    rw [this, List.append_nil, ← h, List.take_length]
  simp only [copy, e]

theorem Parse_String_eq (x : ID) : Parse x.String = (x, none) := by
  have h := x.size
  simp only [Parse, ID.String, EncodeToString, DecodeString_Encode, h, ne_eq, not_true_eq_false,
    if_false, copy_Empty x.bytes h]

set_option maxRecDepth 100000 in
/-- On a hexadecimal digit `fromHexChar` returns its value, below 16; on any other
character it reports `ok = false`. -/
theorem fromHexChar_spec (c : Byte) :
    (isHexDigit c → fromHexChar c = some (hexValue c) ∧ hexValue c < 16) ∧
    (¬ isHexDigit c → fromHexChar c = none) := by
  revert c; decide

/-- On two nibbles `(a << 4) | b` is `16 * a + b`. -/
theorem mkByte_val (a b : Nat) (ha : a < 16) (hb : b < 16) : (mkByte a b).val = 16 * a + b := by
  have h : ∀ a b : Fin 16, (mkByte a.val b.val).val = 16 * a.val + b.val := by decide
  exact h ⟨a, ha⟩ ⟨b, hb⟩

/-- `DecodeString` fails on a string of odd length and on a string with a character
that is not a hexadecimal digit. -/
theorem DecodeString_err : ∀ s : List Byte,
    (s.length % 2 = 1 ∨ ∃ c ∈ s, ¬ isHexDigit c) → ∃ e, (DecodeString s).2 = some e
  | [], h => by
    rcases h with h | ⟨c, hc, _⟩
    · simp at h
    · simp at hc
  | [p], _ => by
    simp only [DecodeString]
    cases fromHexChar p with
    | none => exact ⟨_, rfl⟩
    | some a => exact ⟨_, rfl⟩
  | p :: q :: rest, h => by
    simp only [DecodeString]
    by_cases hp : isHexDigit p
    · by_cases hq : isHexDigit q
      · rw [((fromHexChar_spec p).1 hp).1, ((fromHexChar_spec q).1 hq).1]
        apply DecodeString_err rest
        rcases h with h | ⟨c, hc, hn⟩
        · left
          simp only [List.length_cons] at h
          omega
        · right
          simp only [List.mem_cons] at hc
          rcases hc with hc | hc | hc
          · exact absurd (hc ▸ hp) hn
          · exact absurd (hc ▸ hq) hn
          · exact ⟨c, hc, hn⟩
      · rw [((fromHexChar_spec p).1 hp).1, (fromHexChar_spec q).2 hq]
        exact ⟨_, rfl⟩
    · rw [(fromHexChar_spec p).2 hp]
      exact ⟨_, rfl⟩

/-- `DecodeString` succeeds on a string of even length made of hexadecimal digits, and
decodes `len(s)/2` bytes, byte `i` from the digits at `2i` and `2i+1`. -/
theorem DecodeString_ok : ∀ s : List Byte,
    s.length % 2 = 0 → (∀ c ∈ s, isHexDigit c) →
    (DecodeString s).2 = none ∧ (DecodeString s).1.length = s.length / 2 ∧
    ∀ i, i < s.length / 2 →
      ((DecodeString s).1.getD i 0).val
        = 16 * hexValue (s.getD (2 * i) 0) + hexValue (s.getD (2 * i + 1) 0)
  | [], _, _ => by simp [DecodeString]
  | [p], h, _ => by simp at h
  | p :: q :: rest, h, hd => by
    obtain ⟨hp, hp16⟩ := (fromHexChar_spec p).1 (hd p (by simp))
    obtain ⟨hq, hq16⟩ := (fromHexChar_spec q).1 (hd q (by simp))
    have hlen : rest.length % 2 = 0 := by
      simp only [List.length_cons] at h
      omega
    obtain ⟨ih1, ih2, ih3⟩ := DecodeString_ok rest hlen (fun c hc => hd c (by simp [hc]))
    simp only [DecodeString, hp, hq]
    refine ⟨ih1, ?_, ?_⟩
    · simp only [List.length_cons, ih2]
      omega
    · intro i hi
      cases i with
      | zero => simp [mkByte_val _ _ hp16 hq16]
      | succ j =>
        have hj : j < rest.length / 2 := by
          simp only [List.length_cons] at hi
          omega
        have h1 : 2 * (j + 1) = (2 * j + 1) + 1 := by omega
        rw [h1]
        simp only [List.getD_cons_succ]
        exact ih3 j hj

theorem Empty_get (i : Nat) : Empty.get i = 0 := by
  simp only [ID.get, Empty, List.getD_eq_getElem?_getD, List.getElem?_replicate]
  split <;> rfl

/-- Removing a byte that does not occur changes nothing. -/
theorem ReplaceAll_absent (s : List Byte) (old : Byte) (h : old ∉ s) :
    ReplaceAll s old [] = s := by
  induction s with
  | nil => rfl
  | cons c cs ih =>
    simp only [List.mem_cons, not_or] at h
    have hc : c ≠ old := fun e => h.1 e.symm
    simp only [ReplaceAll, hc, if_false, ih h.2]

/-- Removing the quotes from a quote-free string put between two quotes gives the string. -/
theorem ReplaceAll_sprintfQuoted (s : List Byte) (h : quote ∉ s) :
    ReplaceAll (sprintfQuoted s) quote [] = s := by
  have hend : ∀ t : List Byte, quote ∉ t → ReplaceAll (t ++ [quote]) quote [] = t := by
    intro t ht
    induction t with
    | nil => simp [ReplaceAll]
    | cons c cs ih =>
      simp only [List.mem_cons, not_or] at ht
      have hc : c ≠ quote := fun e => ht.1 e.symm
      have e : (c :: cs) ++ [quote] = c :: (cs ++ [quote]) := rfl
      rw [e]
      simp only [ReplaceAll, hc, if_false, ih ht.2]
  simp only [sprintfQuoted, ReplaceAll, if_true, List.nil_append, hend s h]

/-- The canonical text of an identifier has no quote character. -/
theorem String_no_quote (x : ID) : quote ∉ x.String := by
  intro h
  have hl := Encode_lower x.bytes quote h
  revert hl
  decide

/-- The two outcomes of `UnmarshalJSON`, by the outcome of `Parse` on the input without
its quote characters (as `ReplaceAll` leaves it). -/
theorem UnmarshalJSON_eq (d : ID) (raw : List Byte) :
    d.UnmarshalJSON raw =
      (if (Parse (ReplaceAll raw quote [])).2 = none then (Parse (ReplaceAll raw quote [])).1 else d,
       (Parse (ReplaceAll raw quote [])).2) := by
  unfold ID.UnmarshalJSON
  simp only
  split
  · next x err heq => simp [heq]
  · next x heq => simp [heq]

/-- The two outcomes of `Scan` on a string. -/
theorem Scan_string_eq (d : ID) (s : List Byte) :
    d.Scan (Src.string s) = (if (Parse s).2 = none then (Parse s).1 else d, (Parse s).2) := by
  simp only [ID.Scan]
  split
  · next x err heq => simp [heq]
  · next x heq => simp [heq]

/-! ## Facts about generation -/

/-- The conversion `uint64(timestamp)` gives a number below `2^64`. -/
theorem uint64_lt (t : Int) : uint64 t < 2 ^ 64 := by
  unfold uint64
  omega

/-- The conversion `uint64(timestamp)` is injective on the `int64` range. -/
theorem uint64_inj (t u : Int) (ht : -2 ^ 63 ≤ t ∧ t < 2 ^ 63) (hu : -2 ^ 63 ≤ u ∧ u < 2 ^ 63)
    (h : uint64 t = uint64 u) : t = u := by
  unfold uint64 at h
  omega

/-- Reading back big-endian the eight bytes that `PutUint64` writes gives the number. -/
theorem Uint64_bytes (v : Nat) (hv : v < 2 ^ 64) :
    Uint64 [byte (v >>> 56), byte (v >>> 48), byte (v >>> 40), byte (v >>> 32),
      byte (v >>> 24), byte (v >>> 16), byte (v >>> 8), byte v] = v := by
  simp only [Uint64, byte, List.foldl, Nat.shiftRight_eq_div_pow]
  omega

/-- The sixteen bytes of a generated identifier when the random source delivers 8 bytes. -/
theorem New_bytes (t : Int) (r : List Byte) (hr : r.length = 8) :
    (New t r).bytes =
      [byte (uint64 t >>> 56), byte (uint64 t >>> 48), byte (uint64 t >>> 40),
       byte (uint64 t >>> 32), byte (uint64 t >>> 24), byte (uint64 t >>> 16),
       byte (uint64 t >>> 8), byte (uint64 t)] ++ r := by
  have h1 : List.take 8 r = r := by rw [← hr, List.take_length]
  simp [New, PutUint64, Read, Empty, ByteSize, h1, hr]

/-- Generation is injective in the clock reading and the random bytes. -/
theorem New_inj (t u : Int) (r q : List Byte)
    (ht : -2 ^ 63 ≤ t ∧ t < 2 ^ 63) (hu : -2 ^ 63 ≤ u ∧ u < 2 ^ 63)
    (hr : r.length = 8) (hq : q.length = 8) (h : New t r = New u q) : t = u ∧ r = q := by
  have hb : (New t r).bytes = (New u q).bytes := by rw [h]
  rw [New_bytes t r hr, New_bytes u q hq] at hb
  obtain ⟨h1, h2⟩ := List.append_inj hb (by simp only [List.length_cons, List.length_nil])
  have h3 := congrArg Uint64 h1
  rw [Uint64_bytes _ (uint64_lt t), Uint64_bytes _ (uint64_lt u)] at h3
  exact ⟨uint64_inj t u ht hu h3, h2⟩

/-! ## Facts about letter case and about `Parse` -/

set_option maxRecDepth 100000 in
/-- Encoding a byte made of two nibbles writes the table entries of the nibbles. -/
theorem hex_mkByte (a b : Fin 16) :
    hexHi (mkByte a.val b.val) = hextable.getD a.val 0 ∧
    hexLo (mkByte a.val b.val) = hextable.getD b.val 0 := by
  revert a b; decide

set_option maxRecDepth 100000 in
/-- Letter case, character by character: the table entry of the value of a digit is the
digit in lower case; `fromHexChar` does not see the case; a character that is no digit has
no case; and converting to upper case is undone by converting to lower case. -/
theorem lowerHex_spec (c : Byte) :
    (isHexDigit c → hextable.getD (hexValue c) 0 = lowerHex c) ∧
    fromHexChar (lowerHex c) = fromHexChar c ∧
    (fromHexChar c = none → lowerHex c = c) ∧
    lowerHex (upperHex c) = lowerHex c ∧
    (isLowerHexDigit c → lowerHex c = c ∧ isHexDigit c) ∧
    (lowerHex c = 48 → c = 48) := by
  revert c; decide

/-- `Parse` when `hex.DecodeString` fails. -/
theorem Parse_decode_err (s : List Byte) (e : HexError) (h : (DecodeString s).2 = some e) :
    Parse s = (Empty, some (Error.decode e)) := by
  unfold Parse
  split
  · next r err heq =>
    rw [heq] at h
    simp only [Option.some.injEq] at h
    rw [h]
  · next r heq =>
    rw [heq] at h
    simp at h

/-- `Parse` when `hex.DecodeString` succeeds. -/
theorem Parse_decode_ok (s : List Byte) (h : (DecodeString s).2 = none) :
    Parse s =
      if (DecodeString s).1.length ≠ ByteSize then
        (Empty, some (Error.length ByteSize (DecodeString s).1.length))
      else (copy Empty (DecodeString s).1, none) := by
  unfold Parse
  split
  · next r err heq =>
    rw [heq] at h
    simp at h
  · next r heq => rw [heq]

/-- `Parse` succeeds exactly on the strings of 32 hexadecimal digits. -/
theorem Parse_ok_iff (s : List Byte) :
    (Parse s).2 = none ↔ s.length = 32 ∧ ∀ c ∈ s, isHexDigit c := by
  constructor
  · intro hok
    by_cases hbad : s.length % 2 = 1 ∨ ∃ c ∈ s, ¬ isHexDigit c
    · obtain ⟨e, he⟩ := DecodeString_err s hbad
      rw [Parse_decode_err s e he] at hok
      simp at hok
    · have heven : s.length % 2 = 0 := by omega
      have hhex : ∀ c ∈ s, isHexDigit c := by
        intro c hc
        by_contra hn
        exact hbad (Or.inr ⟨c, hc, hn⟩)
      obtain ⟨h1, h2, _⟩ := DecodeString_ok s heven hhex
      rw [Parse_decode_ok s h1] at hok
      refine ⟨?_, hhex⟩
      by_contra hlen
      have hne : (DecodeString s).1.length ≠ ByteSize := by
        rw [h2]; simp only [ByteSize]; omega
      rw [if_pos hne] at hok
      simp at hok
  · rintro ⟨hlen, hhex⟩
    obtain ⟨h1, h2, _⟩ := DecodeString_ok s (by rw [hlen]) hhex
    have heq : (DecodeString s).1.length = ByteSize := by rw [h2, hlen]; rfl
    rw [Parse_decode_ok s h1]
    simp only [ne_eq, heq, not_true_eq_false, if_false]

/-- `ReplaceAll` with the quote and the empty string removes every quote character. -/
theorem ReplaceAll_quote (raw : List Byte) : ReplaceAll raw quote [] = stripQuotes raw := by
  induction raw with
  | nil => rfl
  | cons c cs ih =>
    have hs : ∀ l : List Byte, stripQuotes l = l.filter fun c => decide (c ≠ quote) :=
      fun _ => rfl
    by_cases hc : c = quote
    · rw [hs, List.filter_cons_of_neg (by simp [hc]), ← hs, ← ih]
      simp only [ReplaceAll, hc, if_true, List.nil_append]
    · rw [hs, List.filter_cons_of_pos (by simp [hc]), ← hs, ← ih]
      simp only [ReplaceAll, hc, if_false]

/-- `hex.DecodeString` does not see the case of the letters: same bytes, same error. -/
theorem DecodeString_lowerHex : ∀ s : List Byte, DecodeString (s.map lowerHex) = DecodeString s
  | [] => rfl
  | [p] => by
    obtain ⟨_, h2, h3, _⟩ := lowerHex_spec p
    simp only [List.map, DecodeString, h2]
    cases hp : fromHexChar p with
    | none => simp only [h3 hp]
    | some a => rfl
  | p :: q :: rest => by
    obtain ⟨_, hp2, hp3, _⟩ := lowerHex_spec p
    obtain ⟨_, hq2, hq3, _⟩ := lowerHex_spec q
    have ih := DecodeString_lowerHex rest
    simp only [List.map, DecodeString, hp2, hq2]
    cases hp : fromHexChar p with
    | none => simp only [hp3 hp]
    | some a =>
      cases hq : fromHexChar q with
      | none => simp only [hq3 hq]
      | some b =>
        have ih2 : DecodeString (List.map lowerHex rest) = DecodeString rest := ih
        simp only [ih2]

/-- `Parse` does not see the case of the letters. -/
theorem Parse_lowerHex (s : List Byte) : Parse (s.map lowerHex) = Parse s := by
  unfold Parse
  rw [DecodeString_lowerHex]

/-- Encoding what `hex.DecodeString` decoded without error gives the input in lower case. -/
theorem Encode_DecodeString : ∀ s : List Byte,
    (DecodeString s).2 = none → Encode (DecodeString s).1 = s.map lowerHex
  | [], _ => rfl
  | [p], h => by
    simp only [DecodeString] at h
    cases hp : fromHexChar p with
    | none => rw [hp] at h; simp at h
    | some a => rw [hp] at h; simp at h
  | p :: q :: rest, h => by
    have hbad : ¬ ((p :: q :: rest).length % 2 = 1 ∨ ∃ c ∈ p :: q :: rest, ¬ isHexDigit c) := by
      intro hb
      obtain ⟨e, he⟩ := DecodeString_err _ hb
      rw [he] at h
      simp at h
    have hall : ∀ c ∈ p :: q :: rest, isHexDigit c := by
      intro c hc
      by_contra hn
      exact hbad (Or.inr ⟨c, hc, hn⟩)
    have hpd := hall p (by simp)
    have hqd := hall q (by simp)
    obtain ⟨hp, hp16⟩ := (fromHexChar_spec p).1 hpd
    obtain ⟨hq, hq16⟩ := (fromHexChar_spec q).1 hqd
    simp only [DecodeString, hp, hq] at h ⊢
    have ih := Encode_DecodeString rest h
    obtain ⟨e1, e2⟩ := hex_mkByte ⟨hexValue p, hp16⟩ ⟨hexValue q, hq16⟩
    simp only at e1 e2
    simp only [Encode, List.map, e1, e2, (lowerHex_spec p).1 hpd, (lowerHex_spec q).1 hqd]
    exact congrArg _ (congrArg _ ih)

/-- The canonical text of the identifier that `Parse` returns without error is the input
in lower case. -/
theorem String_Parse (s : List Byte) (h : (Parse s).2 = none) :
    (Parse s).1.String = s.map lowerHex := by
  obtain ⟨hlen, hhex⟩ := (Parse_ok_iff s).1 h
  obtain ⟨h1, h2, _⟩ := DecodeString_ok s (by rw [hlen]) hhex
  have heq : (DecodeString s).1.length = ByteSize := by rw [h2, hlen]; rfl
  rw [Parse_decode_ok s h1]
  simp only [ne_eq, heq, not_true_eq_false, if_false, copy_Empty _ heq, ID.String,
    EncodeToString]
  exact Encode_DecodeString s h1

/-! ## The claims -/

/-- C1. Round trip: for every identifier `x` (every bit pattern, `Empty` included),
`Parse(String(x))` returns `x` and the `nil` error. -/
theorem C1_Parse_String (x : ID) : Parse x.String = (x, none) ∧ Parse Empty.String = (Empty, none) :=
  ⟨Parse_String_eq x, Parse_String_eq Empty⟩

/-- C2. For every identifier `x`, `String(x)` has exactly 32 characters, each of them one
of `0`-`9`, `a`-`f`, and the characters at positions `2i` and `2i+1` are the lower-case
hexadecimal digits of the high and the low nibble of byte `i` of `x`, for `i` in `0..15`. -/
theorem C2_String_format (x : ID) :
    x.String.length = 32 ∧
    (∀ c ∈ x.String, isLowerHexDigit c) ∧
    ∀ i : Fin 16,
      (x.String[2 * i.val]?).map Fin.val = some (lowerHexDigitOf ((x.get i.val).val / 16)) ∧
      (x.String[2 * i.val + 1]?).map Fin.val = some (lowerHexDigitOf ((x.get i.val).val % 16)) := by
  have hs := x.size
  refine ⟨?_, Encode_lower x.bytes, ?_⟩
  · simp only [ID.String, EncodeToString, Encode_length, hs, ByteSize]
  · intro i
    have hi : i.val < x.bytes.length := by rw [hs]; exact i.isLt
    obtain ⟨e1, e2⟩ := Encode_getElem? x.bytes i.val
    have hg : x.bytes[i.val]? = some (x.get i.val) := by
      simp [ID.get, List.getD_eq_getElem?_getD, List.getElem?_eq_getElem hi]
    simp only [ID.String, EncodeToString, e1, e2, hg, Option.map_some', (hex_digits _).1,
      (hex_digits _).2.1, and_self]

/-- C3. For every string `s` of odd length, or with a character that is not a hexadecimal
digit, whatever its length, `Parse(s)` returns `Empty` together with the error that wraps
the error of `hex.DecodeString` (not the byte-length error). -/
theorem C3_Parse_malformed (s : List Byte)
    (h : s.length % 2 = 1 ∨ ∃ c ∈ s, ¬ isHexDigit c) :
    ∃ e, DecodeString s = ((DecodeString s).1, some e) ∧ Parse s = (Empty, some (Error.decode e)) := by
  obtain ⟨e, he⟩ := DecodeString_err s h
  refine ⟨e, ?_, ?_⟩
  · rw [← he]
  · unfold Parse
    split
    · next r err heq =>
      rw [heq] at he
      simp only [Option.some.injEq] at he
      rw [he]
    · next r heq =>
      rw [heq] at he
      simp at he

set_option maxRecDepth 100000 in
/-- Witness of C3: the string of `TestParseInvalidHex`, 31 times `F` and then `S`. -/
theorem C3_Parse_malformed_witness :
    ∃ e, DecodeString (lit "FFFFFFFFFFFFFFFFFFFFFFFFFFFFFFFS")
          = ((DecodeString (lit "FFFFFFFFFFFFFFFFFFFFFFFFFFFFFFFS")).1, some e) ∧
      Parse (lit "FFFFFFFFFFFFFFFFFFFFFFFFFFFFFFFS") = (Empty, some (Error.decode e)) :=
  C3_Parse_malformed (lit "FFFFFFFFFFFFFFFFFFFFFFFFFFFFFFFS") (by decide)

/-- C4. For every string `s` of even length made of hexadecimal digits whose length is not
32 (the empty string, shorter and longer strings), `Parse(s)` returns `Empty` together with
the length error reporting the expected length 16 and the decoded length `len(s)/2`. -/
theorem C4_Parse_wrong_length (s : List Byte)
    (heven : s.length % 2 = 0) (hhex : ∀ c ∈ s, isHexDigit c) (hlen : s.length ≠ 32) :
    Parse s = (Empty, some (Error.length 16 (s.length / 2))) := by
  obtain ⟨h1, h2, _⟩ := DecodeString_ok s heven hhex
  have hne : (DecodeString s).1.length ≠ ByteSize := by
    rw [h2]; simp only [ByteSize]; omega
  unfold Parse
  split
  · next r err heq => rw [heq] at h1; simp at h1
  · next r heq =>
    rw [heq] at hne h2
    have hne2 : r.length ≠ ByteSize := hne
    have h22 : r.length = s.length / 2 := h2
    rw [if_pos hne2, h22]
    rfl

set_option maxRecDepth 100000 in
/-- Witness of C4: the string of `TestParseWrongByteSize`, 34 times `F`. -/
theorem C4_Parse_wrong_length_witness :
    Parse (lit "FFFFFFFFFFFFFFFFFFFFFFFFFFFFFFFFFF")
      = (Empty, some (Error.length 16 ((lit "FFFFFFFFFFFFFFFFFFFFFFFFFFFFFFFFFF").length / 2))) :=
  C4_Parse_wrong_length (lit "FFFFFFFFFFFFFFFFFFFFFFFFFFFFFFFFFF") (by decide) (by decide) (by decide)

/-- C5. For every string `s` of exactly 32 hexadecimal digits (`0`-`9`, `a`-`f`, `A`-`F`),
`Parse(s)` returns the `nil` error and an identifier whose byte `i`, for `i` in `0..15`, is
`16 * value(s[2i]) + value(s[2i+1])`. -/
theorem C5_Parse_decodes (s : List Byte)
    (hlen : s.length = 32) (hhex : ∀ c ∈ s, isHexDigit c) :
    (Parse s).2 = none ∧
    ∀ i : Fin 16, ((Parse s).1.get i.val).val
      = 16 * hexValue (s.getD (2 * i.val) 0) + hexValue (s.getD (2 * i.val + 1) 0) := by
  obtain ⟨h1, h2, h3⟩ := DecodeString_ok s (by rw [hlen]) hhex
  have hsz : (DecodeString s).1.length = ByteSize := by rw [h2, hlen]; rfl
  have hP : Parse s = (⟨(DecodeString s).1, hsz⟩, none) := by
    unfold Parse
    split
    · next r err heq => rw [heq] at h1; simp at h1
    · next r heq =>
      have hsz2 : r.length = ByteSize := by rw [heq] at hsz; exact hsz
      simp only [ne_eq, hsz2, not_true_eq_false, if_false, copy_Empty r hsz2, heq]
  rw [hP]
  refine ⟨rfl, fun i => ?_⟩
  have hi : i.val < s.length / 2 := by rw [hlen]; exact i.isLt
  exact h3 i.val hi

set_option maxRecDepth 100000 in
/-- Witness of C5: a string of 32 digits in both cases. -/
theorem C5_Parse_decodes_witness :
    (Parse (lit "0123456789abcdefFEDCBA9876543210")).2 = none ∧
    ∀ i : Fin 16, ((Parse (lit "0123456789abcdefFEDCBA9876543210")).1.get i.val).val
      = 16 * hexValue ((lit "0123456789abcdefFEDCBA9876543210").getD (2 * i.val) 0)
        + hexValue ((lit "0123456789abcdefFEDCBA9876543210").getD (2 * i.val + 1) 0) :=
  C5_Parse_decodes (lit "0123456789abcdefFEDCBA9876543210") (by decide) (by decide)

/-- C6. `IsValid(x)` is true if and only if at least one of the 16 bytes of `x` is not zero;
the 16 bytes of `Empty` are all zero and `IsValid(Empty)` is false. -/
theorem C6_IsValid (x : ID) :
    (x.IsValid = true ↔ ∃ i : Fin 16, x.get i.val ≠ 0) ∧
    (∀ i : Fin 16, Empty.get i.val = 0) ∧
    Empty.IsValid = false := by
  refine ⟨?_, fun i => Empty_get i.val, by decide⟩
  have hs := x.size
  simp only [ID.IsValid, decide_eq_true_eq]
  constructor
  · intro hne
    by_contra hall
    apply hne
    have hb : x.bytes = Empty.bytes := by
      apply List.ext_getElem
      · rw [hs]; rfl
      · intro n h1 h2
        have hn : n < 16 := by rw [hs] at h1; exact h1
        have h0 : x.get n = 0 := by
          by_contra hc
          exact hall ⟨⟨n, hn⟩, hc⟩
        have e1 : x.bytes[n] = 0 := by
          simpa [ID.get, List.getD_eq_getElem?_getD, List.getElem?_eq_getElem h1] using h0
        have e2 : Empty.bytes[n] = 0 := by simp [Empty]
        rw [e1, e2]
    cases x with
    | mk b sz =>
      simp only at hb
      subst hb
      rfl
  · rintro ⟨i, hi⟩ heq
    apply hi
    rw [heq]
    exact Empty_get i.val

/-- C7. Structured-data round trip: for every identifier `x` (`Empty` included) and every
prior value of the destination `d`, `MarshalJSON(x)` returns the `nil` error and
`UnmarshalJSON` on `d` with the bytes it produced returns the `nil` error and leaves `d`
equal to `x`. -/
theorem C7_Unmarshal_Marshal (x d : ID) :
    x.MarshalJSON.2 = none ∧ d.UnmarshalJSON x.MarshalJSON.1 = (x, none) ∧
    d.UnmarshalJSON Empty.MarshalJSON.1 = (Empty, none) := by
  have h : ∀ y : ID, d.UnmarshalJSON y.MarshalJSON.1 = (y, none) := by
    intro y
    simp only [ID.UnmarshalJSON, ID.MarshalJSON, ReplaceAll_sprintfQuoted _ (String_no_quote y),
      Parse_String_eq]
  exact ⟨rfl, h x, h Empty⟩

/-- C8. Persistence round trip: for every identifier `x` and every prior value of the
destination `d`, `Value(x)` returns the `nil` error and `Scan` on `d` with the scalar it
produced returns the `nil` error and leaves `d` equal to `x`. -/
theorem C8_Scan_Value (x d : ID) :
    x.Value.2 = none ∧ d.Scan x.Value.1 = (x, none) := by
  refine ⟨rfl, ?_⟩
  simp only [ID.Scan, ID.Value, Parse_String_eq]

/-- C9. For every prior value of the destination `d` (a non-empty one in particular), `Scan`
of the `nil` scalar returns the `nil` error and leaves `d` equal to `Empty`. -/
theorem C9_Scan_nil (d : ID) : d.Scan Src.nil = (Empty, none) := rfl

/-- C10. For every scalar that is neither `nil` nor a string (an integer, a byte sequence, a
float, a boolean, a time), `Scan` returns the type-mismatch error whatever the content of
the scalar, and stores nothing in the destination: the value is neither parsed nor coerced. -/
theorem C10_Scan_not_string (d : ID) (src : Src)
    (hnil : src ≠ Src.nil) (hstr : ∀ s, src ≠ Src.string s) :
    d.Scan src = (d, some Error.notAString) := by
  cases src with
  | nil => exact absurd rfl hnil
  | string s => exact absurd rfl (hstr s)
  | int64 v => rfl
  | float64 b => rfl
  | bool b => rfl
  | bytes b => rfl
  | time n => rfl

set_option maxRecDepth 100000 in
/-- Witness of C10: a byte sequence that spells 32 hexadecimal digits, which `Parse` accepts
as a string, is rejected by `Scan` into a non-empty destination, which stays as it was. -/
theorem C10_Scan_not_string_witness :
    (Parse (lit "0123456789abcdef0123456789abcdef")).2 = none ∧
    (Parse (lit "ffffffffffffffffffffffffffffffff")).1.Scan
        (Src.bytes (lit "0123456789abcdef0123456789abcdef"))
      = ((Parse (lit "ffffffffffffffffffffffffffffffff")).1, some Error.notAString) :=
  ⟨by decide,
   C10_Scan_not_string (Parse (lit "ffffffffffffffffffffffffffffffff")).1
    (Src.bytes (lit "0123456789abcdef0123456789abcdef"))
    (by intro h; cases h) (by intro s h; cases h)⟩

set_option maxRecDepth 100000 in
/-- C11, counterexample. With the destination holding sixteen bytes `0xff` and the raw input
of `TestUnmarshalInvalidHex` (a quote, then `FFFFFH`), `UnmarshalJSON` returns the decode
error for the byte `H` and the destination still holds the sixteen bytes `0xff`, which is
not `Empty`. -/
theorem C11_Unmarshal_error_not_Empty :
    (allFF.UnmarshalJSON (quote :: lit "FFFFFH")).2
        = some (Error.decode (HexError.InvalidByteError 72)) ∧
    (allFF.UnmarshalJSON (quote :: lit "FFFFFH")).1 = allFF ∧
    (allFF.UnmarshalJSON (quote :: lit "FFFFFH")).1 ≠ Empty := by
  decide

/-- C11, amended. For every destination `d` and every raw input on which `UnmarshalJSON`
returns an error, `d` is unchanged by the call; so it is `Empty` after the call exactly
when it was `Empty` before. -/
theorem C11_Unmarshal_error_unchanged (d : ID) (raw : List Byte)
    (herr : (d.UnmarshalJSON raw).2 ≠ none) :
    (d.UnmarshalJSON raw).1 = d ∧ ((d.UnmarshalJSON raw).1 = Empty ↔ d = Empty) := by
  rw [UnmarshalJSON_eq] at herr ⊢
  simp only at herr
  simp only [herr, if_false, and_self, true_and]

set_option maxRecDepth 100000 in
/-- Witness of C11, amended: the raw input of `TestUnmarshalInvalidHex` and a destination
of sixteen bytes `0xff`. -/
theorem C11_Unmarshal_error_unchanged_witness :
    (allFF.UnmarshalJSON (quote :: lit "FFFFFH")).2 ≠ none ∧
    (allFF.UnmarshalJSON (quote :: lit "FFFFFH")).1 = allFF ∧
    ((allFF.UnmarshalJSON (quote :: lit "FFFFFH")).1 = Empty ↔ allFF = Empty) :=
  ⟨by decide, C11_Unmarshal_error_unchanged allFF (quote :: lit "FFFFFH") (by decide)⟩

/-- C12. For every destination `d` and every scalar on which `Scan` returns an error, `d` is
unchanged by the call; the scalar is then a string that `Parse` rejects, with the error of
`Scan` being exactly the error of `Parse` on it, or it is neither `nil` nor a string. -/
theorem C12_Scan_error_unchanged (d : ID) (src : Src)
    (herr : (d.Scan src).2 ≠ none) :
    (d.Scan src).1 = d ∧
    ((∃ s, src = Src.string s ∧ (Parse s).2 ≠ none ∧ (d.Scan src).2 = (Parse s).2) ∨
     (src ≠ Src.nil ∧ (∀ s, src ≠ Src.string s) ∧ (d.Scan src).2 = some Error.notAString)) := by
  cases src with
  | nil => exact absurd rfl herr
  | string s =>
    rw [Scan_string_eq] at herr ⊢
    simp only at herr
    refine ⟨by simp only [herr, if_false], Or.inl ⟨s, rfl, herr, rfl⟩⟩
  | int64 v => exact ⟨rfl, Or.inr ⟨by simp, by simp, rfl⟩⟩
  | float64 b => exact ⟨rfl, Or.inr ⟨by simp, by simp, rfl⟩⟩
  | bool b => exact ⟨rfl, Or.inr ⟨by simp, by simp, rfl⟩⟩
  | bytes b => exact ⟨rfl, Or.inr ⟨by simp, by simp, rfl⟩⟩
  | time n => exact ⟨rfl, Or.inr ⟨by simp, by simp, rfl⟩⟩

set_option maxRecDepth 100000 in
/-- Witness of C12: the text `Hello, World!` of `TestDatabaseUsage` read into a destination
of sixteen bytes `0xff`. -/
theorem C12_Scan_error_unchanged_witness :
    (allFF.Scan (Src.string (lit "Hello, World!"))).2 ≠ none ∧
    (allFF.Scan (Src.string (lit "Hello, World!"))).1 = allFF ∧
    ((∃ s, Src.string (lit "Hello, World!") = Src.string s ∧ (Parse s).2 ≠ none ∧
        (allFF.Scan (Src.string (lit "Hello, World!"))).2 = (Parse s).2) ∨
     (Src.string (lit "Hello, World!") ≠ Src.nil ∧
      (∀ s, Src.string (lit "Hello, World!") ≠ Src.string s) ∧
      (allFF.Scan (Src.string (lit "Hello, World!"))).2 = some Error.notAString)) :=
  ⟨by decide, C12_Scan_error_unchanged allFF (Src.string (lit "Hello, World!")) (by decide)⟩

/-- C13. For every identifier `x`, `MarshalJSON(x)` returns the `nil` error and exactly 34
bytes: a double quote, the 32 characters of `String(x)`, a double quote; and `Value(x)`
returns the `nil` error and the string scalar `String(x)`. -/
theorem C13_Marshal_Value (x : ID) :
    x.MarshalJSON = ([quote] ++ x.String ++ [quote], none) ∧
    x.MarshalJSON.1.length = 34 ∧ x.String.length = 32 ∧
    x.Value = (Src.string x.String, none) := by
  have hl : x.String.length = 32 := by
    simp only [ID.String, EncodeToString, Encode_length, x.size, ByteSize]
  refine ⟨rfl, ?_, hl, rfl⟩
  simp only [ID.MarshalJSON, sprintfQuoted, List.length_cons, List.length_append, hl,
    List.length_nil]

/-- C14. With `New` a function of the clock reading `t` and of the 8 bytes `r` delivered by
the random source: bytes 0..7 of the result, read as a big-endian 64-bit number, are `t` in
two's complement (`t mod 2^64`), and bytes 8..15 are `r`, in order. -/
theorem C14_New_layout (t : Int) (r : List Byte)
    (ht : -2 ^ 63 ≤ t ∧ t < 2 ^ 63) (hr : r.length = 8) :
    Uint64 ((New t r).bytes.take 8) = (t % 2 ^ 64).toNat ∧
    (0 ≤ t → (Uint64 ((New t r).bytes.take 8) : Int) = t) ∧
    (t < 0 → (Uint64 ((New t r).bytes.take 8) : Int) = t + 2 ^ 64) ∧
    (New t r).bytes.drop 8 = r ∧
    ∀ i : Fin 8, (New t r).get (8 + i.val) = r.getD i.val 0 := by
  have hu : Uint64 ((New t r).bytes.take 8) = uint64 t := by
    rw [New_bytes t r hr]
    exact Uint64_bytes _ (uint64_lt t)
  have hd : (New t r).bytes.drop 8 = r := by rw [New_bytes t r hr]; rfl
  refine ⟨hu, ?_, ?_, hd, ?_⟩
  · intro h0
    rw [hu]; unfold uint64; omega
  · intro h0
    rw [hu]; unfold uint64; omega
  · intro i
    simp only [ID.get, New_bytes t r hr, List.getD_eq_getElem?_getD]
    rw [List.getElem?_append_right (by simp)]
    simp

set_option maxRecDepth 100000 in
/-- Witness of C14: the clock reading `-2` and the random bytes `abcdefgh`. -/
theorem C14_New_layout_witness :
    Uint64 ((New (-2) (lit "abcdefgh")).bytes.take 8) = ((-2 : Int) % 2 ^ 64).toNat ∧
    ((0 : Int) ≤ -2 → (Uint64 ((New (-2) (lit "abcdefgh")).bytes.take 8) : Int) = -2) ∧
    ((-2 : Int) < 0 → (Uint64 ((New (-2) (lit "abcdefgh")).bytes.take 8) : Int) = -2 + 2 ^ 64) ∧
    (New (-2) (lit "abcdefgh")).bytes.drop 8 = lit "abcdefgh" ∧
    ∀ i : Fin 8, (New (-2) (lit "abcdefgh")).get (8 + i.val) = (lit "abcdefgh").getD i.val 0 :=
  C14_New_layout (-2) (lit "abcdefgh") (by decide) (by decide)

/-- C15. Two identifiers generated by `New` are different whenever the two calls differ in
the clock reading or in the 8 random bytes, and a generated identifier is different from
`Empty`, hence `IsValid`, whenever its clock reading is not zero or its random bytes are
not all zero. -/
theorem C15_New_distinct (t u : Int) (r q : List Byte)
    (ht : -2 ^ 63 ≤ t ∧ t < 2 ^ 63) (hu : -2 ^ 63 ≤ u ∧ u < 2 ^ 63)
    (hr : r.length = 8) (hq : q.length = 8) :
    ((t ≠ u ∨ r ≠ q) → New t r ≠ New u q) ∧
    ((t ≠ 0 ∨ r ≠ List.replicate 8 0) → New t r ≠ Empty ∧ (New t r).IsValid = true) := by
  constructor
  · intro hne heq
    obtain ⟨h1, h2⟩ := New_inj t u r q ht hu hr hq heq
    rcases hne with h | h
    · exact h h1
    · exact h h2
  · intro hne
    have hE : New t r ≠ Empty := by
      intro heq
      have h0 : Empty = New 0 (List.replicate 8 0) := by decide
      rw [h0] at heq
      obtain ⟨h1, h2⟩ := New_inj t 0 r _ ht (by decide) hr (by simp) heq
      rcases hne with h | h
      · exact h h1
      · exact h h2
    exact ⟨hE, by simp only [ID.IsValid, decide_eq_true_eq]; exact hE⟩

set_option maxRecDepth 100000 in
/-- Witness of C15: two calls in the same nanosecond whose random bytes differ in the last
byte. -/
theorem C15_New_distinct_witness :
    (((1700000000000000000 : Int) ≠ 1700000000000000000 ∨ lit "abcdefgh" ≠ lit "abcdefgi") →
      New 1700000000000000000 (lit "abcdefgh") ≠ New 1700000000000000000 (lit "abcdefgi")) ∧
    (((1700000000000000000 : Int) ≠ 0 ∨ lit "abcdefgh" ≠ List.replicate 8 0) →
      New 1700000000000000000 (lit "abcdefgh") ≠ Empty ∧
      (New 1700000000000000000 (lit "abcdefgh")).IsValid = true) :=
  C15_New_distinct 1700000000000000000 1700000000000000000 (lit "abcdefgh") (lit "abcdefgi")
    (by decide) (by decide) (by decide) (by decide)

/-- C16. For every raw input and every destination `d`, `UnmarshalJSON(raw)` behaves as
`Parse` applied to `raw` with every double-quote character removed, wherever it occurs:
the string handed to `Parse` is the quote-free content, the error returned is the error of
that `Parse`, `d` is replaced by its result when it succeeds (and kept otherwise), and the
call succeeds exactly when the quote-free content is 32 hexadecimal digits. -/
theorem C16_Unmarshal_refines_Parse (d : ID) (raw : List Byte) :
    ReplaceAll raw quote [] = stripQuotes raw ∧
    (d.UnmarshalJSON raw).2 = (Parse (stripQuotes raw)).2 ∧
    (d.UnmarshalJSON raw).1
      = (if (Parse (stripQuotes raw)).2 = none then (Parse (stripQuotes raw)).1 else d) ∧
    ((d.UnmarshalJSON raw).2 = none ↔
      (stripQuotes raw).length = 32 ∧ ∀ c ∈ stripQuotes raw, isHexDigit c) := by
  have h := UnmarshalJSON_eq d raw
  rw [ReplaceAll_quote] at h
  refine ⟨ReplaceAll_quote raw, ?_, ?_, ?_⟩
  · rw [h]
  · rw [h]
  · rw [h]
    exact Parse_ok_iff (stripQuotes raw)

set_option maxRecDepth 100000 in
/-- C17, counterexample. The raw input made of 16 hexadecimal digits, a double quote and 16
more hexadecimal digits has a quote that is neither its first nor its last byte, and
`UnmarshalJSON` accepts it: no error, and the destination holds the 16 decoded bytes. -/
theorem C17_Unmarshal_inner_quote_accepted :
    hasInnerQuote (lit "0123456789abcdef" ++ [quote] ++ lit "0123456789abcdef") ∧
    (Empty.UnmarshalJSON (lit "0123456789abcdef" ++ [quote] ++ lit "0123456789abcdef")).2 = none ∧
    ((Empty.UnmarshalJSON (lit "0123456789abcdef" ++ [quote] ++ lit "0123456789abcdef")).1).bytes
      = [1, 35, 69, 103, 137, 171, 205, 239, 1, 35, 69, 103, 137, 171, 205, 239] := by
  decide

/-- C17, amended. `UnmarshalJSON` removes every double-quote character, not only the
surrounding ones: for a raw input with a double quote at a position other than its first or
last byte, what `Parse` receives is not the raw input but the raw input without its quotes,
and the call is rejected exactly when that is not 32 hexadecimal digits. -/
theorem C17_Unmarshal_inner_quote (d : ID) (raw : List Byte) (h : hasInnerQuote raw) :
    ReplaceAll raw quote [] ≠ raw ∧
    ((d.UnmarshalJSON raw).2 ≠ none ↔
      ¬ ((stripQuotes raw).length = 32 ∧ ∀ c ∈ stripQuotes raw, isHexDigit c)) := by
  have hq : quote ∈ raw :=
    List.mem_of_mem_drop (List.mem_of_mem_dropLast h)
  constructor
  · rw [ReplaceAll_quote]
    intro heq
    rw [← heq] at hq
    have := (List.mem_filter.1 hq).2
    simp at this
  · rw [UnmarshalJSON_eq, ReplaceAll_quote]
    exact not_congr (Parse_ok_iff (stripQuotes raw))

set_option maxRecDepth 100000 in
/-- Witness of C17, amended: two digits, a double quote, two digits: rejected, the
quote-free content having 4 characters. -/
theorem C17_Unmarshal_inner_quote_witness :
    hasInnerQuote (lit "FF" ++ [quote] ++ lit "FF") ∧
    ReplaceAll (lit "FF" ++ [quote] ++ lit "FF") quote [] ≠ lit "FF" ++ [quote] ++ lit "FF" ∧
    ((allFF.UnmarshalJSON (lit "FF" ++ [quote] ++ lit "FF")).2 ≠ none ↔
      ¬ ((stripQuotes (lit "FF" ++ [quote] ++ lit "FF")).length = 32 ∧
          ∀ c ∈ stripQuotes (lit "FF" ++ [quote] ++ lit "FF"), isHexDigit c)) :=
  ⟨by decide, C17_Unmarshal_inner_quote allFF (lit "FF" ++ [quote] ++ lit "FF") (by decide)⟩

/-- C18. `Parse` does not see the case of the letters: for every identifier `x`, `Parse` of
`String(x)` with its letters in upper case returns `x` and no error, and so does `Parse`
of any string that is `String(x)` up to the case of the letters; and on two strings `s`,
`t` that differ only in the case of the letters `a`-`f`, `Parse` returns the same
identifier and the same error, so it fails on the one exactly when it fails on the other. -/
theorem C18_Parse_case_insensitive (x : ID) (s t : List Byte)
    (h : s.map lowerHex = t.map lowerHex) :
    Parse (x.String.map upperHex) = (x, none) ∧
    (t = x.String → Parse s = (x, none)) ∧
    (Parse s).1 = (Parse t).1 ∧
    ((Parse s).2 ≠ none ↔ (Parse t).2 ≠ none) ∧
    Parse s = Parse t := by
  have hst : Parse s = Parse t := by
    rw [← Parse_lowerHex s, ← Parse_lowerHex t, h]
  refine ⟨?_, ?_, by rw [hst], by rw [hst], hst⟩
  · have e : (x.String.map upperHex).map lowerHex = x.String.map lowerHex := by
      rw [List.map_map]
      apply List.map_congr_left
      intro c _
      exact (lowerHex_spec c).2.2.2.1
    rw [← Parse_lowerHex, e, Parse_lowerHex, Parse_String_eq]
  · intro ht
    rw [hst, ht, Parse_String_eq]

set_option maxRecDepth 100000 in
/-- Witness of C18: the identifier of sixteen bytes `0xff`, whose canonical text is 32
letters `f`, and the same text in mixed case. -/
theorem C18_Parse_case_insensitive_witness :
    Parse (allFF.String.map upperHex) = (allFF, none) ∧
    (lit "ffffffffffffffffffffffffffffffff" = allFF.String →
      Parse (lit "fFfFfFfFfFfFfFfFFFFFFFFFffffffff") = (allFF, none)) ∧
    (Parse (lit "fFfFfFfFfFfFfFfFFFFFFFFFffffffff")).1
      = (Parse (lit "ffffffffffffffffffffffffffffffff")).1 ∧
    ((Parse (lit "fFfFfFfFfFfFfFfFFFFFFFFFffffffff")).2 ≠ none ↔
      (Parse (lit "ffffffffffffffffffffffffffffffff")).2 ≠ none) ∧
    Parse (lit "fFfFfFfFfFfFfFfFFFFFFFFFffffffff") = Parse (lit "ffffffffffffffffffffffffffffffff") :=
  C18_Parse_case_insensitive allFF (lit "fFfFfFfFfFfFfFfFFFFFFFFFffffffff")
    (lit "ffffffffffffffffffffffffffffffff") (by decide)

/-- C19. Canonicalisation: for every string `s` on which `Parse` succeeds with result `x`,
`String(x)` is `s` with its letters `A`-`F` in lower case; so `String` after `Parse` is the
identity on the strings of 32 lower-case hexadecimal digits, on which `Parse` succeeds, and
`String` is injective on identifiers. -/
theorem C19_String_Parse_canonical (s : List Byte) (h : (Parse s).2 = none) :
    (Parse s).1.String = s.map lowerHex ∧
    (∀ u : List Byte, u.length = 32 → (∀ c ∈ u, isLowerHexDigit c) →
      (Parse u).2 = none ∧ (Parse u).1.String = u) ∧
    (∀ x y : ID, x.String = y.String → x = y) := by
  refine ⟨String_Parse s h, ?_, ?_⟩
  · intro u hlen hlow
    have hok : (Parse u).2 = none :=
      (Parse_ok_iff u).2 ⟨hlen, fun c hc => ((lowerHex_spec c).2.2.2.2.1 (hlow c hc)).2⟩
    refine ⟨hok, ?_⟩
    rw [String_Parse u hok]
    conv_rhs => rw [← List.map_id u]
    apply List.map_congr_left
    intro c hc
    exact ((lowerHex_spec c).2.2.2.2.1 (hlow c hc)).1
  · intro x y hxy
    have hx := Parse_String_eq x
    rw [hxy, Parse_String_eq y] at hx
    exact (Prod.mk.inj hx).1.symm

set_option maxRecDepth 100000 in
/-- Witness of C19: a string of 32 digits with letters in both cases. -/
theorem C19_String_Parse_canonical_witness :
    (Parse (lit "0123456789abcdefFEDCBA9876543210")).2 = none ∧
    (Parse (lit "0123456789abcdefFEDCBA9876543210")).1.String
      = (lit "0123456789abcdefFEDCBA9876543210").map lowerHex ∧
    (∀ u : List Byte, u.length = 32 → (∀ c ∈ u, isLowerHexDigit c) →
      (Parse u).2 = none ∧ (Parse u).1.String = u) ∧
    (∀ x y : ID, x.String = y.String → x = y) :=
  ⟨by decide, C19_String_Parse_canonical (lit "0123456789abcdefFEDCBA9876543210") (by decide)⟩

set_option maxRecDepth 100000 in
/-- C20. A successful `Parse` can return `Empty`: `Parse` returns no error together with an
identifier for which `IsValid` is false if and only if the input is the string of 32
characters `0`; on that string `Parse` returns `Empty` and no error, and so do `Scan` of
that text and `UnmarshalJSON` of that text in quotes, whatever the destination held. -/
theorem C20_Parse_zeros (s : List Byte) (d : ID) :
    (((Parse s).2 = none ∧ (Parse s).1.IsValid = false) ↔ s = zeros32) ∧
    Parse zeros32 = (Empty, none) ∧
    d.Scan (Src.string zeros32) = (Empty, none) ∧
    d.UnmarshalJSON (sprintfQuoted zeros32) = (Empty, none) := by
  have hz : Parse zeros32 = (Empty, none) := by decide
  have hE : Empty.String = zeros32 := by decide
  refine ⟨⟨?_, ?_⟩, hz, ?_, ?_⟩
  · rintro ⟨hok, hinv⟩
    have hemp : (Parse s).1 = Empty := by
      simpa [ID.IsValid] using hinv
    have hstr := String_Parse s hok
    rw [hemp, hE] at hstr
    have hlen : s.length = 32 := by
      have := congrArg List.length hstr
      simpa [zeros32] using this.symm
    unfold zeros32
    rw [List.eq_replicate_iff]
    refine ⟨hlen, fun b hb => ?_⟩
    have hm : lowerHex b ∈ s.map lowerHex := List.mem_map_of_mem _ hb
    rw [← hstr] at hm
    have h48 : lowerHex b = 48 := List.eq_of_mem_replicate hm
    exact (lowerHex_spec b).2.2.2.2.2 h48
  · intro hs
    rw [hs, hz]
    exact ⟨rfl, by decide⟩
  · rw [Scan_string_eq, hz]
    rfl
  · have hq : quote ∉ zeros32 := by decide
    rw [UnmarshalJSON_eq, ReplaceAll_sprintfQuoted _ hq, hz]
    rfl

end id
